import Mathlib

/-!
Verification development for the text-normalization engine of the
chatgpt-text-cleaner repository (`src/App.jsx`, function `cleanText`).

Strings are modelled as `List Char`.  JavaScript regular-expression
operations used by the source are embedded as structurally recursive
scanning functions so that all definitions are executable by the kernel:

* `new RegExp(char, "g")` replacement       → `replaceAllChar`
* `text.match(regex).length` for one char    → `countOcc`
* `/\d/g` removal                            → filter on `Char.isDigit`
* `/[^\w\sЀ-ӿ]/g` removal          → filter keeping `isWordChar`, `isJsSpace`, `isCyrillic`
* `/[^\x00-\x7F]/g` removal                  → filter on `c.toNat ≤ 0x7F`
* `/\s/g` removal                            → filter on `isJsSpace`
* `/[ \t\f\v]+/g` → single space             → `collapseHoriz`
* `.trim()`                                  → `trimJs` (drops JS whitespace at both ends)
* `/\r?\n/g` → space                         → `removeLineBreaksText`
* `/\r?\n{2,}/g` → `"\n\n"`                  → `normalizeLineBreaksText`
* `/(^\w|\.\s+\w)/g` uppercasing             → `sentenceCaseText`
* `toLowerCase`/`toUpperCase`                → `Char.toLower` / `Char.toUpper`

On case conversion: the source's `toLowerCase()`/`toUpperCase()` perform the
full Unicode Default Case Conversion, while `Char.toLower`/`Char.toUpper`
realize exactly its ASCII fragment and leave every other character unchanged.
The two agree on ASCII text, and the `textCase = "original"` branch performs
no case conversion at all.  Accordingly, every theorem below whose truth
depends on the case-transform step carries a hypothesis confining it to that
common fragment: the input is ASCII, or `textCase` is `"original"`.  (The
sentence-case replace callback itself only ever receives matches of
`(^\w|\.\s+\w)` — ASCII word characters plus `.` and whitespace — so the
callback is exact as modelled; only the initial whole-string lowercase pass
and the `"lowercase"`/`"uppercase"` branches are ASCII-fragment embeddings.)

`isJsSpace` is the ECMAScript class `\s` (WhiteSpace ∪ LineTerminator).
-/

/-- ECMAScript `\s`: tab, LF, VT, FF, CR, space, NBSP, Ogham space mark,
the U+2000–U+200A spaces, LS, PS, NNBSP, MMSP, ideographic space and BOM. -/
def isJsSpace (c : Char) : Bool :=
  c.toNat = 9 || c.toNat = 10 || c.toNat = 11 || c.toNat = 12 || c.toNat = 13 ||
  c.toNat = 32 || c.toNat = 0xA0 || c.toNat = 0x1680 ||
  (0x2000 ≤ c.toNat && c.toNat ≤ 0x200A) ||
  c.toNat = 0x2028 || c.toNat = 0x2029 || c.toNat = 0x202F || c.toNat = 0x205F ||
  c.toNat = 0x3000 || c.toNat = 0xFEFF

/-- The character class of the regex `[ \t\f\v]`: horizontal whitespace. -/
def isHorizWs (c : Char) : Bool :=
  c.toNat = 32 || c.toNat = 9 || c.toNat = 12 || c.toNat = 11

/-- The regex class `\w` = `[A-Za-z0-9_]`. -/
def isWordChar (c : Char) : Bool :=
  (65 ≤ c.toNat && c.toNat ≤ 90) || (97 ≤ c.toNat && c.toNat ≤ 122) ||
  (48 ≤ c.toNat && c.toNat ≤ 57) || c.toNat = 95

/-- The regex range `Ѐ-ӿ` (Cyrillic block). -/
def isCyrillic (c : Char) : Bool :=
  0x400 ≤ c.toNat && c.toNat ≤ 0x4FF

/-- Builds `"U+"` followed by `char.charCodeAt(0).toString(16).toUpperCase().padStart(4, "0")`. -/
def unicodeLabel (c : Char) : String :=
  let digits := (Nat.toDigits 16 c.toNat).map Char.toUpper
  "U+" ++ String.mk (List.replicate (4 - digits.length) '0' ++ digits)

/-- The `problematicChars` dictionary of `App.jsx`, in source (insertion) order. -/
def problematicChars : List (Char × String) :=
  [ ('\u202F', "Narrow No-Break Space (NNBSP)")
  , ('\u200B', "Zero-Width Space")
  , ('\u200C', "Zero-Width Non-Joiner")
  , ('\u200D', "Zero-Width Joiner")
  , ('\uFEFF', "Zero-Width No-Break Space (BOM)")
  , ('\u2003', "Em Space")
  , ('\u2002', "En Space")
  , ('\u2009', "Thin Space")
  , ('\u200A', "Hair Space")
  , ('\u2060', "Word Joiner")
  , ('\u00A0', "Non-Breaking Space")
  , ('\u180E', "Mongolian Vowel Separator")
  , ('\u2028', "Line Separator")
  , ('\u2029', "Paragraph Separator")
  , ('\u061C', "Arabic Letter Mark")
  , ('\u200E', "Left-to-Right Mark")
  , ('\u200F', "Right-to-Left Mark")
  , ('\u202A', "Left-to-Right Embedding")
  , ('\u202B', "Right-to-Left Embedding")
  , ('\u202C', "Pop Directional Formatting")
  , ('\u202D', "Left-to-Right Override")
  , ('\u202E', "Right-to-Left Override")
  , ('\u2066', "Left-to-Right Isolate")
  , ('\u2067', "Right-to-Left Isolate")
  , ('\u2068', "First Strong Isolate")
  , ('\u2069', "Pop Directional Isolate")
  , ('\u2014', "Em Dash")
  , ('\u2013', "En Dash")
  , ('\u2018', "Left Single Quotation Mark")
  , ('\u2019', "Right Single Quotation Mark")
  , ('\u201C', "Left Double Quotation Mark")
  , ('\u201D', "Right Double Quotation Mark")
  , ('\u2026', "Horizontal Ellipsis")
  , ('\u00AB', "Left-Pointing Double Angle Quotation Mark («)")
  , ('\u00BB', "Right-Pointing Double Angle Quotation Mark (»)")
  , ('\u201E', "Double Low-9 Quotation Mark („)")
  , ('\u2032', "Prime (′)")
  , ('\u2033', "Double Prime (″)")
  , ('\u2035', "Reversed Prime (‵)")
  , ('\u2036', "Reversed Double Prime (‶)") ]

/-- The catalog code points, in catalog order. -/
def catalogChars : List Char := problematicChars.map Prod.fst

/-- Global replacement of the single character `c` by the string `r`
(`cleanedText.replace(new RegExp(char, 'g'), r)`). -/
def replaceAllChar (c : Char) (r : List Char) : List Char → List Char
  | [] => []
  | x :: rest =>
    if x = c then r ++ replaceAllChar c r rest else x :: replaceAllChar c r rest

/-- Match count of `text.match(new RegExp(char, "g"))` for a single character. -/
def countOcc (c : Char) (l : List Char) : Nat := l.count c

/-- The replacement chosen by the if-chain in lines 127–149 of `App.jsx`
for a catalog character: dashes become a hyphen, single-quote-like marks an
ASCII apostrophe, double-quote-like marks an ASCII double quote, the ellipsis
three periods, space-like marks one space, and everything else (the
invisible/control marks) is deleted. -/
def replacementFor (c : Char) : List Char :=
  if c = '\u2014' ∨ c = '\u2013' then ['-']
  else if c = '\u2018' ∨ c = '\u2019' then [Char.ofNat 39]
  else if c = '\u201C' ∨ c = '\u201D' then ['"']
  else if c = '\u00AB' ∨ c = '\u00BB' ∨ c = '\u201E' then ['"']
  else if c = '\u2032' ∨ c = '\u2035' then [Char.ofNat 39]
  else if c = '\u2033' ∨ c = '\u2036' then ['"']
  else if c = '\u2026' then ['.', '.', '.']
  else if c = '\u202F' ∨ c = '\u00A0' ∨ c = '\u2003' ∨ c = '\u2002' ∨
          c = '\u2009' ∨ c = '\u200A' then [' ']
  else []

/-- Per-entry statistics record pushed onto `removedChars`. -/
structure MatchRecord where
  char : Char
  name : String
  unicode : String
  count : Nat
deriving DecidableEq, Repr

/-- One iteration of the `Object.entries(problematicChars).forEach` loop:
count occurrences of the character of the entry in the original `text`; on a hit,
rewrite the working text, record the statistics and bump the total. -/
def catalogStep (text : List Char) (st : List Char × List MatchRecord × Nat)
    (e : Char × String) : List Char × List MatchRecord × Nat :=
  let count := countOcc e.1 text
  if 0 < count then
    (replaceAllChar e.1 (replacementFor e.1) st.1,
     st.2.1 ++ [⟨e.1, e.2, unicodeLabel e.1, count⟩],
     st.2.2 + count)
  else st

/-- The whole catalog substitution pass (lines 113–151 of `App.jsx`):
working text, removed-character records, total count. -/
def catalogScan (text : List Char) : List Char × List MatchRecord × Nat :=
  problematicChars.foldl (catalogStep text) (text, [], 0)

/-- Scan of `l` replacing each maximal run of horizontal whitespace by one
space (regex `/[ \t\f\v]+/g` → `" "`); the flag `inRun` records that the
space of the current run was already emitted. -/
def collapseAux : Bool → List Char → List Char
  | _, [] => []
  | true, c :: rest =>
    if isHorizWs c then collapseAux true rest
    else c :: collapseAux false rest
  | false, c :: rest =>
    if isHorizWs c then ' ' :: collapseAux true rest
    else c :: collapseAux false rest

/-- Embeds `cleanedText.replace(/[ \t\f\v]+/g, " ")`. -/
def collapseHoriz (l : List Char) : List Char := collapseAux false l

/-- Drop trailing characters satisfying `p` (keeps a prefix). -/
def dropTrailing (p : Char → Bool) : List Char → List Char
  | [] => []
  | c :: rest =>
    let r := dropTrailing p rest
    if r.isEmpty && p c then [] else c :: r

/-- Embeds `String.prototype.trim()`: remove leading and trailing JS whitespace. -/
def trimJs (l : List Char) : List Char :=
  dropTrailing isJsSpace (l.dropWhile isJsSpace)

/-- Embeds `cleanedText.replace(/\r?\n/g, " ")`. -/
def removeLineBreaksText : List Char → List Char
  | [] => []
  | '\r' :: '\n' :: rest => ' ' :: removeLineBreaksText rest
  | c :: rest =>
    if c = '\n' then ' ' :: removeLineBreaksText rest
    else c :: removeLineBreaksText rest

/-- Embeds the global replace of the regex matching an optional CR followed
by two or more LFs with two LFs: a match needs an optional CR followed by at
least two LFs (the CR sits outside the LF counter); the flag `inRun` records
that we are still consuming the LF run of an emitted match. -/
def normAux : Bool → List Char → List Char
  | _, [] => []
  | true, '\n' :: rest => normAux true rest
  | _, '\r' :: '\n' :: '\n' :: rest => '\n' :: '\n' :: normAux true rest
  | _, '\n' :: '\n' :: rest => '\n' :: '\n' :: normAux true rest
  | _, c :: rest => c :: normAux false rest

/-- Embeds the replace of `\r?\n` runs described above (lines 185–187). -/
def normalizeLineBreaksText (l : List Char) : List Char := normAux false l

/-- Scanner for the global regex `\.\s+\w`, uppercasing the matched word
character.  State 0: plain scanning; state 1: the previous character was a
period with no whitespace seen yet; state 2: inside the whitespace run after
a period.  Any other state behaves like state 0. -/
def scAux : Nat → List Char → List Char
  | _, [] => []
  | 1, c :: rest =>
    if isJsSpace c then c :: scAux 2 rest
    else if c = '.' then '.' :: scAux 1 rest
    else c :: scAux 0 rest
  | 2, c :: rest =>
    if isJsSpace c then c :: scAux 2 rest
    else if isWordChar c then c.toUpper :: scAux 0 rest
    else if c = '.' then '.' :: scAux 1 rest
    else c :: scAux 0 rest
  | _, c :: rest =>
    if c = '.' then '.' :: scAux 1 rest
    else c :: scAux 0 rest

/-- Start-of-string handling for the sentence-case regex: the anchor `^\w`
uppercases a word character at position 0; a leading `.` enters the
post-period state; anything else starts the plain scan. -/
def scStartList : List Char → List Char
  | [] => []
  | c :: rest =>
    if isWordChar c then c.toUpper :: scAux 0 rest
    else if c = '.' then '.' :: scAux 1 rest
    else c :: scAux 0 rest

/-- Embeds `cleanedText.toLowerCase().replace(/(^\w|\.\s+\w)/g, m => m.toUpperCase())`:
lowercase everything, uppercase a word character at position 0 (anchor `^\w`),
then run the `\.\s+\w` scanner over the rest.  The scanner (and its
`toUpperCase` callback, which only ever sees ASCII `\w` matches) is exact;
the initial whole-string lowercase pass is the ASCII fragment of the Unicode
case conversion the source performs, exact on ASCII text (see the file
header). -/
def sentenceCaseText (l : List Char) : List Char :=
  scStartList (l.map Char.toLower)

/-- The `switch (options.textCase)` of lines 190–204: any string other than
the three recognized values keeps the original case.  The `"lowercase"` and
`"uppercase"` branches use the ASCII fragment of the Unicode case conversion
the source performs; they are exact on ASCII text and the default branch is
exact everywhere (see the file header). -/
def applyTextCase (tc : String) (l : List Char) : List Char :=
  if tc = "lowercase" then l.map Char.toLower
  else if tc = "uppercase" then l.map Char.toUpper
  else if tc = "sentence" then sentenceCaseText l
  else l

/-- The cleaning options record of `App.jsx`. -/
structure CleaningOptions where
  textCase : String
  removeExtraSpaces : Bool
  removeAllSpaces : Bool
  removeLineBreaks : Bool
  normalizeLineBreaks : Bool
  removeNumbers : Bool
  removePunctuation : Bool
  removeSpecialChars : Bool
  removeNonAscii : Bool
deriving DecidableEq, Repr

/-- The record `defaultCleaningOptions` from `App.jsx`. -/
def defaultCleaningOptions : CleaningOptions :=
  { textCase := "original"
  , removeExtraSpaces := true
  , removeAllSpaces := false
  , removeLineBreaks := false
  , normalizeLineBreaks := false
  , removeNumbers := false
  , removePunctuation := false
  , removeSpecialChars := false
  , removeNonAscii := false }

/-- Result record of `cleanText`. -/
structure CleanupResult where
  cleanedText : List Char
  removedChars : List MatchRecord
  totalRemoved : Nat
deriving DecidableEq, Repr

/-- The filter applied by both `removePunctuation` and `removeSpecialChars`:
`cleanedText.replace(/[^\w\sЀ-ӿ]/g, '')`. -/
def keepWordSpaceCyr (l : List Char) : List Char :=
  l.filter (fun c => isWordChar c || isJsSpace c || isCyrillic c)

/-- Step 2 of `cleanText` (line 156): `if (options.removeNumbers)`. -/
def stepNumbers (options : CleaningOptions) (l : List Char) : List Char :=
  if options.removeNumbers then l.filter (fun c => !c.isDigit) else l

/-- Step 3 of `cleanText` (line 161): `if (options.removePunctuation)`. -/
def stepPunctuation (options : CleaningOptions) (l : List Char) : List Char :=
  if options.removePunctuation then keepWordSpaceCyr l else l

/-- Step 4 of `cleanText` (line 166): `if (options.removeSpecialChars)`. -/
def stepSpecialChars (options : CleaningOptions) (l : List Char) : List Char :=
  if options.removeSpecialChars then keepWordSpaceCyr l else l

/-- Step 5 of `cleanText` (line 171): `if (options.removeNonAscii)`. -/
def stepNonAscii (options : CleaningOptions) (l : List Char) : List Char :=
  if options.removeNonAscii then l.filter (fun c => c.toNat ≤ 0x7F) else l

/-- Step 6 of `cleanText` (lines 176–180): space handling. -/
def stepSpaces (options : CleaningOptions) (l : List Char) : List Char :=
  if options.removeAllSpaces then l.filter (fun c => !isJsSpace c)
  else if options.removeExtraSpaces then trimJs (collapseHoriz l)
  else l

/-- Step 7 of `cleanText` (lines 183–187): line-break handling. -/
def stepLineBreaks (options : CleaningOptions) (l : List Char) : List Char :=
  if options.removeLineBreaks then removeLineBreaksText l
  else if options.normalizeLineBreaks then normalizeLineBreaksText l
  else l

/-- Step 8 of `cleanText` (lines 190–204): case transformation. -/
def stepCase (options : CleaningOptions) (l : List Char) : List Char :=
  applyTextCase options.textCase l

/-- Step 9 of `cleanText` (lines 206–209): the final cleanup pass. -/
def stepFinal (options : CleaningOptions) (l : List Char) : List Char :=
  if !options.removeAllSpaces && options.removeExtraSpaces then trimJs (collapseHoriz l)
  else l

/-- Lines 153–209 of `App.jsx`: the option-driven transforms applied,
in source order, to the output of the catalog pass. -/
def applyCleaningSteps (options : CleaningOptions) (l0 : List Char) : List Char :=
  stepFinal options (stepCase options (stepLineBreaks options (stepSpaces options
    (stepNonAscii options (stepSpecialChars options (stepPunctuation options
      (stepNumbers options l0)))))))

/-- The `cleanText` function of `App.jsx` (lines 108–216). -/
def cleanText (text : List Char) (options : CleaningOptions) : CleanupResult :=
  let st := catalogScan text
  { cleanedText := applyCleaningSteps options st.1
  , removedChars := st.2.1.filter (fun item => 0 < item.count)
  , totalRemoved := st.2.2 }

/-- Projection of the catalog fold to the working text: the rewrites applied
by the entries of `es`, with occurrence counts taken in `text`. -/
def cleanedFold (text : List Char) : List (Char × String) → List Char → List Char
  | [], cl => cl
  | e :: es, cl =>
    cleanedFold text es
      (if 0 < countOcc e.1 text then replaceAllChar e.1 (replacementFor e.1) cl else cl)

/-- Modelled from the claim text (C1): em/en dash become a hyphen; the single
quotation marks, prime and reversed prime become an ASCII apostrophe; the
double quotation marks, angle quotes, low-9 quote, double prime and reversed
double prime become an ASCII double quote; the ellipsis becomes three
periods; the six space-like marks become one space; every remaining catalog
code point is deleted; non-catalog characters are untouched. -/
def specCatalogPolicy (c : Char) : List Char :=
  if c = '\u2014' ∨ c = '\u2013' then ['-']
  else if c = '\u2018' ∨ c = '\u2019' ∨ c = '\u2032' ∨ c = '\u2035' then [Char.ofNat 39]
  else if c = '\u201C' ∨ c = '\u201D' ∨ c = '\u00AB' ∨ c = '\u00BB' ∨ c = '\u201E' ∨
          c = '\u2033' ∨ c = '\u2036' then ['"']
  else if c = '\u2026' then ['.', '.', '.']
  else if c = '\u202F' ∨ c = '\u00A0' ∨ c = '\u2003' ∨ c = '\u2002' ∨
          c = '\u2009' ∨ c = '\u200A' then [' ']
  else if catalogChars.contains c then []
  else [c]

/-! ## Basic character lemmas -/

theorem isJsSpace_iff (c : Char) : isJsSpace c = true ↔
    (c.toNat = 9 ∨ c.toNat = 10 ∨ c.toNat = 11 ∨ c.toNat = 12 ∨ c.toNat = 13 ∨
     c.toNat = 32 ∨ c.toNat = 0xA0 ∨ c.toNat = 0x1680 ∨
     (0x2000 ≤ c.toNat ∧ c.toNat ≤ 0x200A) ∨
     c.toNat = 0x2028 ∨ c.toNat = 0x2029 ∨ c.toNat = 0x202F ∨ c.toNat = 0x205F ∨
     c.toNat = 0x3000 ∨ c.toNat = 0xFEFF) := by
  simp [isJsSpace, Bool.or_eq_true, decide_eq_true_eq, or_assoc]

theorem isHorizWs_iff (c : Char) : isHorizWs c = true ↔
    (c.toNat = 32 ∨ c.toNat = 9 ∨ c.toNat = 12 ∨ c.toNat = 11) := by
  simp [isHorizWs, Bool.or_eq_true, decide_eq_true_eq, or_assoc]

theorem isWordChar_iff (c : Char) : isWordChar c = true ↔
    ((65 ≤ c.toNat ∧ c.toNat ≤ 90) ∨ (97 ≤ c.toNat ∧ c.toNat ≤ 122) ∨
     (48 ≤ c.toNat ∧ c.toNat ≤ 57) ∨ c.toNat = 95) := by
  simp [isWordChar, Bool.or_eq_true, decide_eq_true_eq, or_assoc]

theorem replaceAllChar_nil (c : Char) (r : List Char) : replaceAllChar c r [] = [] := rfl

theorem replaceAllChar_append (c : Char) (r a b : List Char) :
    replaceAllChar c r (a ++ b) = replaceAllChar c r a ++ replaceAllChar c r b := by
  induction a with
  | nil => rfl
  | cons x a ih =>
    by_cases h : x = c
    · simp [replaceAllChar, h, ih]
    · simp [replaceAllChar, h, ih]

theorem replaceAllChar_not_mem {c : Char} (r : List Char) {l : List Char} (h : c ∉ l) :
    replaceAllChar c r l = l := by
  induction l with
  | nil => rfl
  | cons x l ih =>
    have hx : x ≠ c := fun he => h (he ▸ List.mem_cons_self x l)
    simp only [replaceAllChar, if_neg hx]
    rw [ih (fun hm => h (List.mem_cons_of_mem x hm))]

theorem catalogFold_fst (text : List Char) (es : List (Char × String))
    (st : List Char × List MatchRecord × Nat) :
    (es.foldl (catalogStep text) st).1 = cleanedFold text es st.1 := by
  induction es generalizing st with
  | nil => rfl
  | cons e es ih =>
    rw [List.foldl_cons, ih, cleanedFold]
    by_cases h : 0 < countOcc e.1 text
    · simp only [catalogStep, if_pos h]
    · simp only [catalogStep, if_neg h]

theorem catalogFold_snd (text : List Char) (es : List (Char × String))
    (st : List Char × List MatchRecord × Nat) :
    (es.foldl (catalogStep text) st).2.1 = st.2.1 ++
      es.filterMap (fun e => if 0 < countOcc e.1 text then
        some ⟨e.1, e.2, unicodeLabel e.1, countOcc e.1 text⟩ else none) := by
  induction es generalizing st with
  | nil => simp
  | cons e es ih =>
    rw [List.foldl_cons, ih, List.filterMap_cons]
    by_cases h : 0 < countOcc e.1 text
    · simp only [catalogStep, if_pos h, List.append_assoc, List.singleton_append]
    · simp only [catalogStep, if_neg h]

theorem catalogFold_total (text : List Char) (es : List (Char × String))
    (st : List Char × List MatchRecord × Nat) :
    (es.foldl (catalogStep text) st).2.2 = st.2.2 +
      (es.map (fun e => countOcc e.1 text)).sum := by
  induction es generalizing st with
  | nil => simp
  | cons e es ih =>
    rw [List.foldl_cons, ih, List.map_cons, List.sum_cons]
    by_cases h : 0 < countOcc e.1 text
    · simp only [catalogStep, if_pos h]
      omega
    · simp only [catalogStep, if_neg h]
      omega

theorem cleanedFold_nil_text (text : List Char) (es : List (Char × String)) :
    cleanedFold text es [] = [] := by
  induction es with
  | nil => rfl
  | cons e es ih =>
    rw [cleanedFold]
    split
    · rw [replaceAllChar_nil]
      exact ih
    · exact ih

theorem cleanedFold_append (text : List Char) (es : List (Char × String)) (a b : List Char) :
    cleanedFold text es (a ++ b) = cleanedFold text es a ++ cleanedFold text es b := by
  induction es generalizing a b with
  | nil => rfl
  | cons e es ih =>
    rw [cleanedFold, cleanedFold, cleanedFold]
    split
    · rw [replaceAllChar_append]
      exact ih _ _
    · exact ih _ _

theorem cleanedFold_flatMap (text : List Char) (es : List (Char × String)) (l : List Char) :
    cleanedFold text es l = l.flatMap (fun x => cleanedFold text es [x]) := by
  induction l with
  | nil => simp [cleanedFold_nil_text]
  | cons x l ih =>
    have : x :: l = [x] ++ l := rfl
    rw [this, cleanedFold_append, ih, List.flatMap_append]
    simp

theorem cleanedFold_not_mem (text : List Char) {es : List (Char × String)} {cl : List Char}
    (h : ∀ e ∈ es, e.1 ∉ cl) : cleanedFold text es cl = cl := by
  induction es with
  | nil => rfl
  | cons e es ih =>
    rw [cleanedFold]
    have h1 : e.1 ∉ cl := h e (List.mem_cons_self e es)
    split
    · rw [replaceAllChar_not_mem _ h1]
      exact ih (fun e' he' => h e' (List.mem_cons_of_mem e he'))
    · exact ih (fun e' he' => h e' (List.mem_cons_of_mem e he'))

theorem replacementFor_ascii (y : Char) : ∀ d ∈ replacementFor y, d.toNat ≤ 0x7F := by
  intro d hd
  unfold replacementFor at hd
  repeat' split at hd
  all_goals simp only [List.mem_cons, List.mem_singleton, List.not_mem_nil, or_false] at hd
  all_goals
    first
    | exact hd.elim
    | (rcases hd with rfl | rfl | rfl <;> decide)

theorem cleanedFold_single (text : List Char) (es : List (Char × String)) (x : Char)
    (hx : x ∈ text) (hes : ∀ e ∈ es, 0x80 ≤ e.1.toNat) :
    cleanedFold text es [x] =
      if (es.map Prod.fst).contains x then replacementFor x else [x] := by
  induction es with
  | nil => rfl
  | cons e es ih =>
    by_cases he : e.1 = x
    · have hcount : 0 < countOcc e.1 text := by
        rw [he]
        exact List.count_pos_iff.mpr hx
      rw [cleanedFold, if_pos hcount, he]
      have hrepl : replaceAllChar x (replacementFor x) [x] = replacementFor x := by
        simp [replaceAllChar]
      rw [hrepl]
      have hno : ∀ e' ∈ es, e'.1 ∉ replacementFor x := by
        intro e' he' hmem
        have h1 := hes e' (List.mem_cons_of_mem e he')
        have h2 := replacementFor_ascii x e'.1 hmem
        omega
      rw [cleanedFold_not_mem text hno]
      have : ((e :: es).map Prod.fst).contains x = true := by
        simp [he]
      rw [this, if_pos rfl]
    · rw [cleanedFold]
      have hstep : (if 0 < countOcc e.1 text then
          replaceAllChar e.1 (replacementFor e.1) [x] else [x]) = [x] := by
        split
        · have : x ≠ e.1 := fun hh => he hh.symm
          simp [replaceAllChar, this]
        · rfl
      rw [hstep, ih (fun e' he' => hes e' (List.mem_cons_of_mem e he'))]
      have : ((e :: es).map Prod.fst).contains x = (es.map Prod.fst).contains x := by
        simp only [List.map_cons, List.contains_cons]
        have : (x == e.1) = false := by
          rw [beq_eq_false_iff_ne]
          exact fun hh => he hh.symm
        rw [this, Bool.false_or]
      rw [this]

theorem catalog_chars_nonascii : ∀ e ∈ problematicChars, 0x80 ≤ e.1.toNat := by decide

theorem specCatalogPolicy_mem :
    ∀ x ∈ catalogChars, specCatalogPolicy x = replacementFor x := by decide

theorem specCatalogPolicy_not_mem (x : Char) (hc : catalogChars.contains x = false) :
    specCatalogPolicy x = [x] := by
  have hno : ∀ y : Char, catalogChars.contains y = true → ¬ x = y := by
    intro y hy hxy
    rw [hxy, hy] at hc
    exact absurd hc (by decide)
  unfold specCatalogPolicy
  rw [if_neg (by rintro (h | h) <;> exact hno _ (by decide) h)]
  rw [if_neg (by rintro (h | h | h | h) <;> exact hno _ (by decide) h)]
  rw [if_neg (by rintro (h | h | h | h | h | h | h) <;> exact hno _ (by decide) h)]
  rw [if_neg (by intro h; exact hno _ (by decide) h)]
  rw [if_neg (by rintro (h | h | h | h | h | h) <;> exact hno _ (by decide) h)]
  rw [if_neg (by intro h; rw [hc] at h; exact Bool.false_ne_true h)]

theorem catalogScan_fst_policy (t : List Char) :
    (catalogScan t).1 = t.flatMap specCatalogPolicy := by
  rw [catalogScan, catalogFold_fst, cleanedFold_flatMap]
  apply List.flatMap_congr
  intro x hx
  rw [cleanedFold_single t problematicChars x hx catalog_chars_nonascii]
  by_cases hc : catalogChars.contains x = true
  · rw [if_pos ?_]
    · exact (specCatalogPolicy_mem x (List.mem_of_elem_eq_true hc)).symm
    · exact hc
  · have hc' : catalogChars.contains x = false := by
      cases h : catalogChars.contains x
      · rfl
      · exact absurd h hc
    rw [specCatalogPolicy_not_mem x hc']
    have : (problematicChars.map Prod.fst).contains x = false := hc'
    rw [this, if_neg (by simp)]

/-- C1: the catalog substitution pass of `cleanText` rewrites every character
pointwise according to the policy table stated in the specification: dashes
to a hyphen, single-quote-like marks to an ASCII apostrophe, double-quote-like
marks to an ASCII double quote, the ellipsis to three periods, the space-like
marks to one space, the remaining catalog code points to nothing; every other
character is left unchanged. -/
theorem catalog_pass_follows_policy (t : List Char) :
    (catalogScan t).1 = t.flatMap specCatalogPolicy :=
  catalogScan_fst_policy t

/-! ## Claim C2: the report -/

theorem cleanText_removedChars (t : List Char) (o : CleaningOptions) :
    (cleanText t o).removedChars =
      (problematicChars.filterMap (fun e => if 0 < countOcc e.1 t then
        some ⟨e.1, e.2, unicodeLabel e.1, countOcc e.1 t⟩ else none)).filter
        (fun item => 0 < item.count) := by
  show ((catalogScan t).2.1.filter (fun item => 0 < item.count)) = _
  rw [catalogScan, catalogFold_snd]
  simp

theorem filterMap_records_filter (t : List Char) (es : List (Char × String)) :
    (es.filterMap (fun e => if 0 < countOcc e.1 t then
        some (⟨e.1, e.2, unicodeLabel e.1, countOcc e.1 t⟩ : MatchRecord) else none)).filter
        (fun item => 0 < item.count) =
      es.filterMap (fun e => if 0 < countOcc e.1 t then
        some ⟨e.1, e.2, unicodeLabel e.1, countOcc e.1 t⟩ else none) := by
  induction es with
  | nil => rfl
  | cons e es ih =>
    rw [List.filterMap_cons]
    by_cases h : 0 < countOcc e.1 t
    · rw [if_pos h, List.filter_cons]
      have : (0 < (⟨e.1, e.2, unicodeLabel e.1, countOcc e.1 t⟩ : MatchRecord).count) := h
      simp only [this, decide_True, if_true, ih]
    · rw [if_neg h, ih]

theorem sum_counts_eq (t : List Char) (es : List (Char × String)) :
    ((es.filterMap (fun e => if 0 < countOcc e.1 t then
        some (⟨e.1, e.2, unicodeLabel e.1, countOcc e.1 t⟩ : MatchRecord) else none)).map
        MatchRecord.count).sum =
      (es.map (fun e => countOcc e.1 t)).sum := by
  induction es with
  | nil => rfl
  | cons e es ih =>
    rw [List.filterMap_cons, List.map_cons, List.sum_cons]
    by_cases h : 0 < countOcc e.1 t
    · rw [if_pos h, List.map_cons, List.sum_cons, ih]
    · rw [if_neg h, ih]
      omega

/-- C2: for every input and every option record, `matches` is exactly the
catalog-order list of one record per catalog entry whose character occurs in
the original input, carrying the occurrence count of that character in the
original input, and `totalRemoved` is the sum of those counts. -/
theorem clean_report_characterization (t : List Char) (o : CleaningOptions) :
    (cleanText t o).removedChars =
      problematicChars.filterMap (fun e => if 0 < countOcc e.1 t then
        some ⟨e.1, e.2, unicodeLabel e.1, countOcc e.1 t⟩ else none) ∧
    (cleanText t o).totalRemoved =
      ((cleanText t o).removedChars.map MatchRecord.count).sum := by
  constructor
  · rw [cleanText_removedChars, filterMap_records_filter]
  · rw [cleanText_removedChars, filterMap_records_filter, sum_counts_eq]
    show (catalogScan t).2.2 = _
    rw [catalogScan, catalogFold_total]
    simp

/-- C10: the report part of the result (`matches` and `totalRemoved`) does not
depend on the options: occurrence counting reads only the original input. -/
theorem clean_report_independent_of_options (t : List Char) (o₁ o₂ : CleaningOptions) :
    (cleanText t o₁).removedChars = (cleanText t o₂).removedChars ∧
    (cleanText t o₁).totalRemoved = (cleanText t o₂).totalRemoved :=
  ⟨rfl, rfl⟩

/-! ## Claims C4 and C7: option algebra -/

/-- C4: when `removeAllSpaces` is set, the value of `removeExtraSpaces` is
irrelevant: both settings produce the same `CleanupResult` (all-spaces removal
takes precedence and extra-spaces collapsing is skipped). -/
theorem removeAllSpaces_precedence (t : List Char) (o : CleaningOptions)
    (h : o.removeAllSpaces = true) :
    cleanText t { o with removeExtraSpaces := true } =
      cleanText t { o with removeExtraSpaces := false } := by
  cases o with
  | mk tc res ras rlb nlb rn rp rsc rna =>
    simp only at h
    subst h
    rfl

theorem removeAllSpaces_precedence_witness :
    ({ defaultCleaningOptions with removeAllSpaces := true } : CleaningOptions).removeAllSpaces
        = true ∧
    cleanText "a  b\tc".toList
        { { defaultCleaningOptions with removeAllSpaces := true } with removeExtraSpaces := true } =
      cleanText "a  b\tc".toList
        { { defaultCleaningOptions with removeAllSpaces := true } with removeExtraSpaces := false } :=
  ⟨rfl, removeAllSpaces_precedence "a  b\tc".toList
    { defaultCleaningOptions with removeAllSpaces := true } rfl⟩

theorem keepWordSpaceCyr_idem (l : List Char) :
    keepWordSpaceCyr (keepWordSpaceCyr l) = keepWordSpaceCyr l := by
  unfold keepWordSpaceCyr
  rw [List.filter_filter]
  simp [Bool.and_self]

/-- C7: `removePunctuation` and `removeSpecialChars` trigger the identical
filter (keep word characters, whitespace and the Cyrillic block), so the three
configurations — only `removePunctuation`, only `removeSpecialChars`, and both
— produce exactly the same `CleanupResult`. -/
theorem punctuation_specialChars_equivalent (t : List Char) (o : CleaningOptions) :
    cleanText t { o with removePunctuation := true, removeSpecialChars := false } =
      cleanText t { o with removePunctuation := false, removeSpecialChars := true } ∧
    cleanText t { o with removePunctuation := true, removeSpecialChars := true } =
      cleanText t { o with removePunctuation := true, removeSpecialChars := false } := by
  cases o with
  | mk tc res ras rlb nlb rn rp rsc rna =>
    constructor
    · rfl
    · simp only [cleanText, applyCleaningSteps, stepNumbers, stepPunctuation,
        stepSpecialChars, stepNonAscii, stepSpaces, stepLineBreaks, stepCase, stepFinal]
      simp [keepWordSpaceCyr_idem]

/-! ## Collapse / trim step lemmas -/

theorem collapseAux_cons_nonHoriz (b : Bool) (c : Char) (rest : List Char)
    (h : isHorizWs c = false) : collapseAux b (c :: rest) = c :: collapseAux false rest := by
  cases b <;> simp [collapseAux, h]

theorem collapseHoriz_cons_nonHoriz (c : Char) (rest : List Char) (h : isHorizWs c = false) :
    collapseHoriz (c :: rest) = c :: collapseHoriz rest :=
  collapseAux_cons_nonHoriz false c rest h

theorem collapseAux_append_single (b : Bool) (t : List Char) (c : Char)
    (h : isHorizWs c = false) : collapseAux b (t ++ [c]) = collapseAux b t ++ [c] := by
  induction t generalizing b with
  | nil => cases b <;> simp [collapseAux, h]
  | cons d t ih =>
    by_cases hd : isHorizWs d
    · cases b <;> simp [collapseAux, hd, ih]
    · cases b <;> simp [collapseAux, hd, ih]

theorem dropTrailing_append_ws (p : Char → Bool) (l : List Char) (c : Char) (h : p c = true) :
    dropTrailing p (l ++ [c]) = dropTrailing p l := by
  induction l with
  | nil => simp [dropTrailing, h]
  | cons d l ih => simp [dropTrailing, ih]

theorem trimJs_cons_ws (c : Char) (w : List Char) (h : isJsSpace c = true) :
    trimJs (c :: w) = trimJs w := by
  simp [trimJs, List.dropWhile_cons, h]

theorem trimJs_append_ws (w : List Char) (c : Char) (h : isJsSpace c = true) :
    trimJs (w ++ [c]) = trimJs w := by
  unfold trimJs
  rw [List.dropWhile_append]
  split
  · rename_i he
    have hw : List.dropWhile isJsSpace w = [] := by
      simpa [List.isEmpty_iff] using he
    rw [hw]
    simp [List.dropWhile_cons, h, dropTrailing]
  · rw [dropTrailing_append_ws _ _ _ h]

/-! ## Claim C5 -/

/-- C5 counterexample: on `"\nhello\n"` with default options the
whitespace-handling step does remove the leading and trailing newlines —
`.trim()` trims every kind of whitespace, newlines included. -/
theorem trim_removes_newlines_counterexample :
    (cleanText "\nhello\n".toList defaultCleaningOptions).cleanedText = "hello".toList ∧
    (cleanText "\nhello\n".toList defaultCleaningOptions).cleanedText ≠ "\nhello\n".toList := by
  decide

/-- C5 (amended): when `removeExtraSpaces` is set and `removeAllSpaces` is not,
the whitespace-handling step collapses runs of horizontal whitespace to one
space and then trims leading and trailing whitespace of every kind — newlines
included: a newline at either end of the input is dropped by the step. -/
theorem extraSpaces_step_drops_outer_newlines (t : List Char) :
    trimJs (collapseHoriz ('\n' :: t)) = trimJs (collapseHoriz t) ∧
    trimJs (collapseHoriz (t ++ ['\n'])) = trimJs (collapseHoriz t) := by
  constructor
  · rw [collapseHoriz_cons_nonHoriz _ _ (by decide), trimJs_cons_ws _ _ (by decide)]
  · rw [show collapseHoriz (t ++ ['\n']) = collapseHoriz t ++ ['\n'] from
      collapseAux_append_single false t '\n' (by decide)]
    rw [trimJs_append_ws _ _ (by decide)]

/-! ## Claim C6 -/

theorem catalogScan_fst_id {t : List Char}
    (h : ∀ c ∈ t, catalogChars.contains c = false) : (catalogScan t).1 = t := by
  rw [catalogScan_fst_policy]
  have hpt : ∀ c ∈ t, specCatalogPolicy c = [c] := fun c hc =>
    specCatalogPolicy_not_mem c (h c hc)
  rw [List.flatMap_congr hpt]
  simp

/-- C6 counterexample: with `normalizeLineBreaks` set, a run of three CRLF
line breaks is left completely unchanged — the regex `\r?\n{2,}` never
matches inside `"a\r\n\r\n\r\nb"` — contradicting the claim that every run of
two or more line breaks is collapsed to exactly two. -/
theorem normalize_crlf_counterexample :
    (cleanText "a\r\n\r\n\r\nb".toList
        { defaultCleaningOptions with normalizeLineBreaks := true }).cleanedText
      = "a\r\n\r\n\r\nb".toList ∧
    (cleanText "a\r\n\r\n\r\nb".toList
        { defaultCleaningOptions with normalizeLineBreaks := true }).cleanedText
      ≠ "a\r\n\r\nb".toList ∧
    (cleanText "a\r\n\r\n\r\nb".toList
        { defaultCleaningOptions with normalizeLineBreaks := true }).cleanedText
      ≠ "a\n\nb".toList := by
  decide

/-- C6 (amended): the collapse only applies to runs of two or more bare LFs
(optionally preceded by a single CR): such a run between `"Hi"` and `"There"`
becomes exactly one blank line, while CRLF-pair runs are not collapsed. -/
theorem normalize_collapses_bare_lf_runs (n : Nat) (h : 2 ≤ n) :
    normalizeLineBreaksText ("Hi".toList ++ List.replicate n '\n' ++ "There".toList) =
      "Hi\n\nThere".toList ∧
    (cleanText ("Hi".toList ++ List.replicate n '\n' ++ "There".toList)
        { defaultCleaningOptions with
            removeExtraSpaces := false
            normalizeLineBreaks := true }).cleanedText = "Hi\n\nThere".toList := by
  obtain ⟨k, rfl⟩ : ∃ k, n = k + 2 := ⟨n - 2, by omega⟩
  have hrep : ∀ (m : Nat) (rest : List Char),
      normAux true (List.replicate m '\n' ++ rest) = normAux true rest := by
    intro m rest
    induction m with
    | zero => rfl
    | succ m ih =>
      rw [List.replicate_succ, List.cons_append]
      rw [normAux]
      exact ih
  have hmain : normalizeLineBreaksText ("Hi".toList ++ List.replicate (k + 2) '\n' ++
      "There".toList) = "Hi\n\nThere".toList := by
    show ('H' :: 'i' :: '\n' :: '\n' ::
      normAux true (List.replicate k '\n' ++ "There".toList)) = _
    rw [hrep]
    decide
  refine ⟨hmain, ?_⟩
  have hcat : (catalogScan ("Hi".toList ++ List.replicate (k + 2) '\n' ++
      "There".toList)).1 = "Hi".toList ++ List.replicate (k + 2) '\n' ++ "There".toList := by
    apply catalogScan_fst_id
    intro c hc
    rw [List.mem_append, List.mem_append] at hc
    rcases hc with (hc | hc) | hc
    · fin_cases hc <;> decide
    · rw [List.mem_replicate] at hc
      rw [hc.2]
      decide
    · fin_cases hc <;> decide
  have hproj : (cleanText ("Hi".toList ++ List.replicate (k + 2) '\n' ++ "There".toList)
      { defaultCleaningOptions with
          removeExtraSpaces := false
          normalizeLineBreaks := true }).cleanedText =
      applyCleaningSteps
        { defaultCleaningOptions with
            removeExtraSpaces := false
            normalizeLineBreaks := true }
        (catalogScan ("Hi".toList ++ List.replicate (k + 2) '\n' ++ "There".toList)).1 := rfl
  rw [hproj, hcat]
  have happ : ∀ l : List Char,
      applyCleaningSteps
        { defaultCleaningOptions with
            removeExtraSpaces := false
            normalizeLineBreaks := true } l = normalizeLineBreaksText l := fun l => rfl
  rw [happ]
  exact hmain

/-! ## Claim C8 -/

/-- C8 counterexample: on `"a.  b"` with `textCase = sentence` and the other
options at their documented defaults (so `removeExtraSpaces = true`), the
internal double space is collapsed, so the result is `"A. B"`, not the
claimed `"A.  B"`. -/
theorem sentence_case_example_counterexample :
    (cleanText "a.  b".toList
        { defaultCleaningOptions with textCase := "sentence" }).cleanedText
      ≠ "A.  B".toList ∧
    (cleanText "a.  b".toList
        { defaultCleaningOptions with textCase := "sentence" }).cleanedText
      = "A. B".toList := by
  decide

/-- C8 (amended): with `textCase = sentence` and the other defaults, cleaning
`"a.  b"` lowercases, uppercases the string start and the post-period letter,
and collapses the double space (because `removeExtraSpaces` defaults to true),
yielding `"A. B"`; the claimed `"A.  B"` requires `removeExtraSpaces = false`. -/
theorem sentence_case_example_amended :
    (cleanText "a.  b".toList
        { defaultCleaningOptions with textCase := "sentence" }).cleanedText
      = "A. B".toList ∧
    (cleanText "a.  b".toList
        { defaultCleaningOptions with
            textCase := "sentence"
            removeExtraSpaces := false }).cleanedText = "A.  B".toList := by
  decide

theorem normalize_collapses_bare_lf_runs_witness :
    2 ≤ 3 ∧
    (normalizeLineBreaksText ("Hi".toList ++ List.replicate 3 '\n' ++ "There".toList) =
        "Hi\n\nThere".toList ∧
      (cleanText ("Hi".toList ++ List.replicate 3 '\n' ++ "There".toList)
          { defaultCleaningOptions with
              removeExtraSpaces := false
              normalizeLineBreaks := true }).cleanedText = "Hi\n\nThere".toList) :=
  ⟨by decide, normalize_collapses_bare_lf_runs 3 (by decide)⟩

/-! ## Collapse idempotence and trim interaction -/

theorem collapseAux_idem (l : List Char) :
    collapseAux false (collapseAux false l) = collapseAux false l ∧
    collapseAux true (collapseAux true l) = collapseAux true l := by
  induction l with
  | nil => exact ⟨rfl, rfl⟩
  | cons c rest ih =>
    by_cases hc : isHorizWs c
    · constructor
      · simp only [collapseAux, hc, if_pos]
        simp only [show isHorizWs ' ' = true from rfl, if_pos]
        rw [ih.2]
      · simp only [collapseAux, hc, if_pos]
        exact ih.2
    · constructor
      · simp only [collapseAux, hc, if_neg, Bool.false_eq_true, if_false]
        rw [ih.1]
      · simp only [collapseAux, hc, Bool.false_eq_true, if_false]
        rw [ih.1]

theorem collapseHoriz_idem (l : List Char) :
    collapseHoriz (collapseHoriz l) = collapseHoriz l :=
  (collapseAux_idem l).1

theorem dropWhile_head_shape (p : Char → Bool) (l : List Char) :
    List.dropWhile p l = [] ∨
      ∃ a x, List.dropWhile p l = a :: x ∧ p a = false := by
  induction l with
  | nil => exact Or.inl rfl
  | cons c rest ih =>
    by_cases hp : p c
    · simpa [List.dropWhile_cons, hp] using ih
    · right
      exact ⟨c, rest, by simp [List.dropWhile_cons, hp], by simpa using hp⟩

theorem dropWhile_idem (p : Char → Bool) (l : List Char) :
    List.dropWhile p (List.dropWhile p l) = List.dropWhile p l := by
  rcases dropWhile_head_shape p l with h | ⟨a, x, hax, hpa⟩
  · rw [h]
    rfl
  · rw [hax, List.dropWhile_cons, hpa]
    simp

theorem word_not_space {c : Char} (h : isWordChar c = true) : isJsSpace c = false := by
  rw [isWordChar_iff] at h
  cases hs : isJsSpace c
  · rfl
  · rw [isJsSpace_iff] at hs
    omega

theorem horiz_not_word {c : Char} (h : isHorizWs c = true) : isWordChar c = false := by
  rw [isHorizWs_iff] at h
  cases hw : isWordChar c
  · rfl
  · rw [isWordChar_iff] at hw
    omega

